import Mathlib

/-!
AudioImager: the stereo transform of `AudioCallback`.

A shallow embedding of `src/audioimager.c`.

* C `int` values are integers reduced into the signed 32-bit range after every
  arithmetic operation (`wrap32`), `short` stores reduce into the signed 16-bit
  range (`wrap16`), `Uint32` values are naturals reduced modulo `2^32` and
  `size_t` values naturals reduced modulo `2^64`.
* The globals `wav_buffer`, `wav_sample`, `monos` and `cancels` form the
  `State`; `wav_length` is the byte length of `wav_buffer`, as `SDL_LoadWAV`
  sets it.
* The output stream is a log of the stores `outbu[k] = v`, in program order.
* A read outside the buffer and a division by zero end the run with a fault.
-/

namespace AudioImager

/-! ## Machine integers -/

/-- Value of an integer once stored in a C `int` (32-bit two's complement). -/
def wrap32 (x : Int) : Int := (x + 2147483648) % 4294967296 - 2147483648

/-- Value of an integer once stored in a C `short` (16-bit two's complement). -/
def wrap16 (x : Int) : Int := (x + 32768) % 65536 - 32768

/-- Conversion of an `int` to `size_t` (64 bits). -/
def toSizeT (x : Int) : Nat := (x % 18446744073709551616).toNat

/-- The value of `sizeof(short)`. -/
def sizeofShort : Nat := 2

/-- The constant `IN_CHA`. -/
def IN_CHA : Nat := 2

/-- The constant `LEFT_CHA`. -/
def LEFT_CHA : Nat := 0

/-- The constant `RIGHT_CHA`. -/
def RIGHT_CHA : Nat := 1

/-! ## Program state -/

/-- The globals the callback touches: the bytes of `wav_buffer`, the sample
cursor `wav_sample` (a `Uint32`) and the two strengths (both `int`). -/
structure State where
  wav_buffer : List (Fin 256)
  wav_sample : Nat
  monos : Int
  cancels : Int
deriving DecidableEq, Repr

/-- The global `wav_length`: the number of bytes `SDL_LoadWAV` stored in
`wav_buffer`. The callback writes neither. -/
def State.wav_length (s : State) : Nat := s.wav_buffer.length

/-- The read `inbu[k]` with `inbu = (short*) wav_buffer`: the little-endian
signed 16-bit value held by bytes `2k` and `2k+1`, or `none` when one of the
two bytes lies outside the buffer. -/
def readShort (buf : List (Fin 256)) (k : Nat) : Option Int :=
  match buf[2 * k]?, buf[2 * k + 1]? with
  | some lo, some hi => some (wrap16 ((lo.val : Int) + 256 * (hi.val : Int)))
  | _, _ => none

/-! ## One frame (lines 47-64) -/

/-- The statement `if (x < 0) x *= -1;` applied to a strength. -/
def flipSign (x : Int) : Int := if x < 0 then wrap32 (x * (-1)) else x

/-- The expression initialising `div` (line 58), on the strengths as they are
after lines 56-57. -/
def divExpr (monos cancels : Int) : Int :=
  if monos > cancels then wrap32 (2 * monos)
  else if cancels > monos then wrap32 (2 * cancels)
  else wrap32 (monos + cancels)

/-- The normalisation divisor the callback computes from the stored strengths
`monos`, `cancels` (lines 56-58). -/
def divisor (monos cancels : Int) : Int :=
  divExpr (flipSign monos) (flipSign cancels)

/-- Lines 48-53: the values of `a` and `b` before the normalisation, from the
samples `A`, `B` and the strengths as stored on entry to the iteration. -/
def mix (monos cancels A B : Int) : Int × Int :=
  let C := wrap32 (A + B)
  let D := wrap32 (A - B)
  let a := wrap32 (wrap32 (monos * C) + wrap32 (cancels * D))
  let b := wrap32 (wrap32 (monos * C) - wrap32 (cancels * D))
  (a, b)

/-- Everything one loop iteration computes from the two samples read. -/
structure FrameResult where
  /-- The `int a` after `a /= div`. -/
  a : Int
  /-- The `int b` after `b /= div`. -/
  b : Int
  /-- The `short` stored in `outbu[LEFT_CHA + i]`. -/
  outLeft : Int
  /-- The `short` stored in `outbu[RIGHT_CHA + i]`. -/
  outRight : Int
  /-- The global `monos` after the iteration. -/
  monos : Int
  /-- The global `cancels` after the iteration. -/
  cancels : Int
deriving DecidableEq, Repr

/-- Lines 47-64 of `AudioCallback` on the samples `A = inbu[wav_sample]`,
`B = inbu[wav_sample + 1]` and the stored strengths; `none` is the division by
zero. -/
def frame (monos cancels A B : Int) : Option FrameResult :=
  let a := (mix monos cancels A B).1
  let b := (mix monos cancels A B).2
  let monos := flipSign monos
  let cancels := flipSign cancels
  let div := divExpr monos cancels
  if div = 0 then none
  else
    let a := wrap32 (Int.tdiv a div)
    let b := wrap32 (Int.tdiv b div)
    some { a := a, b := b, outLeft := wrap16 a, outRight := wrap16 b,
           monos := monos, cancels := cancels }

/-- The output pair `(out_left, out_right)` of one frame. -/
def transform (left right m c : Int) : Option (Int × Int) :=
  (frame m c left right).map fun r => (r.outLeft, r.outRight)

/-! ## The callback -/

/-- How a run of the callback ends. -/
inductive Outcome where
  /-- The callback returned: final globals and the stores made to `outbu`, each
  as (index, value), in program order. -/
  | done (s : State) (out : List (Int × Int))
  /-- A read of `inbu[k]` outside the buffer. -/
  | readPastEnd (k : Nat)
  /-- A division `a /= div` with `div = 0`. -/
  | divByZero
  /-- The model stopped before the loop did. -/
  | outOfFuel
deriving DecidableEq, Repr

/-- The `for` loop of lines 43-68, entered with loop variable `i`; `out` is the
log of stores made so far. Each evaluation of the loop test uses one unit of
fuel. -/
def loop : Nat → State → Int → Int → List (Int × Int) → Outcome
  | 0, _, _, _, _ => Outcome.outOfFuel
  | fuel + 1, s, i, len, out =>
    if toSizeT i * sizeofShort % 18446744073709551616 < toSizeT len then
      match readShort s.wav_buffer ((s.wav_sample + LEFT_CHA) % 4294967296) with
      | none => Outcome.readPastEnd ((s.wav_sample + LEFT_CHA) % 4294967296)
      | some A =>
        match readShort s.wav_buffer ((s.wav_sample + RIGHT_CHA) % 4294967296) with
        | none => Outcome.readPastEnd ((s.wav_sample + RIGHT_CHA) % 4294967296)
        | some B =>
          match frame s.monos s.cancels A B with
          | none => Outcome.divByZero
          | some r =>
            loop fuel
              { s with monos := r.monos, cancels := r.cancels,
                       wav_sample := (s.wav_sample + IN_CHA) % 4294967296 }
              (wrap32 (i + IN_CHA)) len
              (out ++ [(wrap32 (LEFT_CHA + i), r.outLeft),
                       (wrap32 (RIGHT_CHA + i), r.outRight)])
    else Outcome.done s out

/-- The function `AudioCallback(userdata, stream, len)` run on the globals `s`.
The product `wav_sample * sizeof(short)` is a `size_t`. The `printf` of the
early return writes to standard output, not to the stream, and is left out. -/
def AudioCallback (fuel : Nat) (s : State) (len : Int) : Outcome :=
  if s.wav_sample * sizeofShort % 18446744073709551616 ≥ s.wav_length then
    Outcome.done s []
  else loop fuel s 0 len []

/-- Successive invocations of the callback, one per requested length; the
result holds the final globals and the store log of every invocation, or
`none` as soon as one invocation does not return. -/
def invocations (fuel : Nat) : State → List Int → Option (State × List (List (Int × Int)))
  | s, [] => some (s, [])
  | s, len :: rest =>
    match AudioCallback fuel s len with
    | Outcome.done s1 out =>
      match invocations fuel s1 rest with
      | some (s2, outs) => some (s2, out :: outs)
      | none => none
    | _ => none

/-- Strengths inside the `int` range except its least value, not both zero. -/
def UsableStrengths (m c : Int) : Prop :=
  -2147483648 < m ∧ m < 2147483648 ∧ -2147483648 < c ∧ c < 2147483648 ∧ ¬ (m = 0 ∧ c = 0)

/-! ## The algorithm of the specification (section 4.1) -/

/-- Step 5 of the specified algorithm: the divisor from the absolute values. -/
def specDivisor (m c : Int) : Int :=
  if |m| > |c| then 2 * |m| else if |c| > |m| then 2 * |c| else |m| + |c|

/-- Steps 1-6 of the specified algorithm on unbounded integers. -/
def specTransform (left right m c : Int) : Int × Int :=
  let sum := left + right
  let diff := left - right
  let a := m * sum + c * diff
  let b := m * sum - c * diff
  (Int.tdiv a (specDivisor m c), Int.tdiv b (specDivisor m c))

/-! ## Machine-integer lemmas -/

theorem wrap32_eq (x : Int) (h1 : -2147483648 ≤ x) (h2 : x < 2147483648) : wrap32 x = x := by
  unfold wrap32; omega

theorem wrap16_eq (x : Int) (h1 : -32768 ≤ x) (h2 : x < 32768) : wrap16 x = x := by
  unfold wrap16; omega

theorem flipSign_eq_abs (x : Int) (h1 : -2147483648 < x) (h2 : x < 2147483648) :
    flipSign x = |x| := by
  unfold flipSign
  split
  · rw [wrap32_eq _ (by omega) (by omega), abs_of_neg (by assumption)]; ring
  · rw [abs_of_nonneg (by omega)]

theorem abs_mul_le (m x M X : Int) (hm : |m| ≤ M) (hx : |x| ≤ X) : |m * x| ≤ M * X := by
  rw [abs_mul]
  exact mul_le_mul hm hx (abs_nonneg _) (le_trans (abs_nonneg _) hm)

theorem abs_tdiv_le (a d : Int) : |Int.tdiv a d| ≤ |a| := by
  rw [Int.abs_eq_natAbs, Int.abs_eq_natAbs, Int.natAbs_tdiv]
  exact_mod_cast Nat.div_le_self _ _

theorem divExpr_eq (m c : Int) (hm0 : 0 ≤ m) (hm : m < 1073741824) (hc0 : 0 ≤ c)
    (hc : c < 1073741824) : divExpr m c = 2 * max m c := by
  unfold divExpr
  split
  · rw [wrap32_eq _ (by omega) (by omega), max_eq_left (by omega)]
  · split
    · rw [wrap32_eq _ (by omega) (by omega), max_eq_right (by omega)]
    · rw [wrap32_eq _ (by omega) (by omega)]
      have : m = c := by omega
      subst this
      rw [max_self]; ring

theorem specDivisor_eq (m c : Int) : specDivisor m c = 2 * max |m| |c| := by
  unfold specDivisor
  split
  · rw [max_eq_left (by omega)]
  · split
    · rw [max_eq_right (by omega)]
    · have : |m| = |c| := by omega
      rw [this, max_self]; ring

/-! ## One frame against the specified algorithm -/

/-- Within the stated bounds no `int` operation of the frame wraps: the frame
divides the two mixed values by the specified divisor and leaves the absolute
values in the globals. -/
theorem frame_eq (m c A B : Int) (hA1 : -32768 ≤ A) (hA2 : A ≤ 32767) (hB1 : -32768 ≤ B)
    (hB2 : B ≤ 32767) (hm : |m| ≤ 16383) (hc : |c| ≤ 16383) (hnz : ¬ (m = 0 ∧ c = 0)) :
    frame m c A B = some
      { a := Int.tdiv (m * (A + B) + c * (A - B)) (specDivisor m c)
        b := Int.tdiv (m * (A + B) - c * (A - B)) (specDivisor m c)
        outLeft := wrap16 (Int.tdiv (m * (A + B) + c * (A - B)) (specDivisor m c))
        outRight := wrap16 (Int.tdiv (m * (A + B) - c * (A - B)) (specDivisor m c))
        monos := |m|
        cancels := |c| } := by
  have hm' := abs_le.mp hm
  have hc' := abs_le.mp hc
  have hC : |A + B| ≤ 65536 := abs_le.mpr ⟨by omega, by omega⟩
  have hD : |A - B| ≤ 65536 := abs_le.mpr ⟨by omega, by omega⟩
  have hmC := abs_le.mp (abs_mul_le m (A + B) 16383 65536 hm hC)
  have hcD := abs_le.mp (abs_mul_le c (A - B) 16383 65536 hc hD)
  have hfm : flipSign m = |m| := flipSign_eq_abs m (by omega) (by omega)
  have hfc : flipSign c = |c| := flipSign_eq_abs c (by omega) (by omega)
  have hdiv : divExpr |m| |c| = specDivisor m c := by
    rw [specDivisor_eq, divExpr_eq _ _ (abs_nonneg m) (by omega) (abs_nonneg c) (by omega)]
  have hpos : specDivisor m c ≠ 0 := by
    rw [specDivisor_eq]
    have h0m := abs_nonneg m
    have h0c := abs_nonneg c
    have hne : ¬ (|m| = 0 ∧ |c| = 0) := fun h => hnz ⟨abs_eq_zero.mp h.1, abs_eq_zero.mp h.2⟩
    rcases le_total |m| |c| with h | h
    · rw [max_eq_right h]; omega
    · rw [max_eq_left h]; omega
  have ha := abs_le.mp (le_trans (abs_tdiv_le (m * (A + B) + c * (A - B)) (specDivisor m c))
    (abs_le.mpr ⟨by omega, by omega⟩ : |m * (A + B) + c * (A - B)| ≤ 2147352576))
  have hb := abs_le.mp (le_trans (abs_tdiv_le (m * (A + B) - c * (A - B)) (specDivisor m c))
    (abs_le.mpr ⟨by omega, by omega⟩ : |m * (A + B) - c * (A - B)| ≤ 2147352576))
  unfold frame mix
  simp only [hfm, hfc, hdiv, if_neg hpos]
  rw [wrap32_eq (A + B) (by omega) (by omega), wrap32_eq (A - B) (by omega) (by omega),
    wrap32_eq (m * (A + B)) (by omega) (by omega), wrap32_eq (c * (A - B)) (by omega) (by omega),
    wrap32_eq (m * (A + B) + c * (A - B)) (by omega) (by omega),
    wrap32_eq (m * (A + B) - c * (A - B)) (by omega) (by omega),
    wrap32_eq _ (by omega) (by omega), wrap32_eq _ (by omega) (by omega)]

/-- C1. For samples in the signed 16-bit range and stored strengths of absolute
value at most 16383, not both zero, the frame computed by the callback stores
the two quotients of the specified algorithm (sum and difference mixed by the
strengths, divided with truncation toward zero by the specified divisor), each
reduced modulo 2^16 into the signed 16-bit range, without clamping. -/
theorem frame_refines_spec (left right m c : Int)
    (hl1 : -32768 ≤ left) (hl2 : left ≤ 32767) (hr1 : -32768 ≤ right) (hr2 : right ≤ 32767)
    (hm : |m| ≤ 16383) (hc : |c| ≤ 16383) (hnz : ¬ (m = 0 ∧ c = 0)) :
    transform left right m c =
      some (wrap16 (specTransform left right m c).1, wrap16 (specTransform left right m c).2) ∧
    (specTransform left right m c).1 =
      Int.tdiv (m * (left + right) + c * (left - right))
        (if |m| > |c| then 2 * |m| else if |c| > |m| then 2 * |c| else |m| + |c|) ∧
    (specTransform left right m c).2 =
      Int.tdiv (m * (left + right) - c * (left - right))
        (if |m| > |c| then 2 * |m| else if |c| > |m| then 2 * |c| else |m| + |c|) := by
  refine ⟨?_, rfl, rfl⟩
  unfold transform
  rw [frame_eq m c left right hl1 hl2 hr1 hr2 hm hc hnz]
  rfl

/-- The frame (100, -60) under strengths (-3, 5). -/
theorem frame_refines_spec_witness :
    transform 100 (-60) (-3) 5 =
      some (wrap16 (specTransform 100 (-60) (-3) 5).1, wrap16 (specTransform 100 (-60) (-3) 5).2) ∧
    (specTransform 100 (-60) (-3) 5).1 =
      Int.tdiv (-3 * (100 + -60) + 5 * (100 - -60))
        (if |(-3 : Int)| > |(5 : Int)| then 2 * |(-3 : Int)|
         else if |(5 : Int)| > |(-3 : Int)| then 2 * |(5 : Int)| else |(-3 : Int)| + |(5 : Int)|) ∧
    (specTransform 100 (-60) (-3) 5).2 =
      Int.tdiv (-3 * (100 + -60) - 5 * (100 - -60))
        (if |(-3 : Int)| > |(5 : Int)| then 2 * |(-3 : Int)|
         else if |(5 : Int)| > |(-3 : Int)| then 2 * |(5 : Int)| else |(-3 : Int)| + |(5 : Int)|) :=
  frame_refines_spec 100 (-60) (-3) 5 (by decide) (by decide) (by decide) (by decide)
    (by decide) (by decide) (by decide)

/-- Truncating division by two, split on the sign of the dividend. -/
theorem tdiv_two (x : Int) : Int.tdiv x 2 = if 0 ≤ x then x / 2 else -((-x) / 2) := by
  split
  · exact Int.tdiv_eq_ediv (by assumption) (by decide)
  · have h : x = -(-x) := by ring
    conv_lhs => rw [h, Int.neg_tdiv]
    rw [Int.tdiv_eq_ediv (by omega) (by decide)]

theorem specDivisor_neg_right (m c : Int) : specDivisor m (-c) = specDivisor m c := by
  unfold specDivisor
  rw [abs_neg]

theorem frame_isSome_iff (m c A B : Int) : (frame m c A B).isSome ↔ divisor m c ≠ 0 := by
  unfold frame divisor
  by_cases h : divExpr (flipSign m) (flipSign c) = 0
  · simp [h]
  · simp [h]

/-- C6 (as the code behaves). For samples in the signed 16-bit range and
strengths of absolute value at most 16383, not both zero: exchanging the two
input samples and negating the cancel strength leaves the output pair
unchanged, and exchanging the two input samples alone exchanges the two output
channels. -/
theorem transform_symmetry (left right m c : Int)
    (hl1 : -32768 ≤ left) (hl2 : left ≤ 32767) (hr1 : -32768 ≤ right) (hr2 : right ≤ 32767)
    (hm : |m| ≤ 16383) (hc : |c| ≤ 16383) (hnz : ¬ (m = 0 ∧ c = 0)) :
    transform left right m c = transform right left m (-c) ∧
    transform left right m c = (transform right left m c).map Prod.swap := by
  have e1 : m * (right + left) + -c * (right - left) = m * (left + right) + c * (left - right) := by
    ring
  have e2 : m * (right + left) - -c * (right - left) = m * (left + right) - c * (left - right) := by
    ring
  have e3 : m * (right + left) + c * (right - left) = m * (left + right) - c * (left - right) := by
    ring
  have e4 : m * (right + left) - c * (right - left) = m * (left + right) + c * (left - right) := by
    ring
  have hnc : |(-c)| ≤ 16383 := by rw [abs_neg]; exact hc
  have hnz' : ¬ (m = 0 ∧ -c = 0) := fun h => hnz ⟨h.1, neg_eq_zero.mp h.2⟩
  unfold transform
  rw [frame_eq m c left right hl1 hl2 hr1 hr2 hm hc hnz,
    frame_eq m (-c) right left hr1 hr2 hl1 hl2 hm hnc hnz',
    frame_eq m c right left hr1 hr2 hl1 hl2 hm hc hnz]
  simp only [Option.map_some', e1, e2, e3, e4, specDivisor_neg_right, Prod.swap_prod_mk, and_self]

/-- The frame (100, -60) under strengths (3, -2). -/
theorem transform_symmetry_witness :
    transform 100 (-60) 3 (-2) = transform (-60) 100 3 (-(-2)) ∧
    transform 100 (-60) 3 (-2) = (transform (-60) 100 3 (-2)).map Prod.swap :=
  transform_symmetry 100 (-60) 3 (-2) (by decide) (by decide) (by decide) (by decide)
    (by decide) (by decide) (by decide)

/-- C6 (as stated) fails: with left = 100, right = -60, m = 1, c = 1 the frame
gives (100, -60), and the exchanged frame (-60, 100) under strengths (1, -1)
gives (100, -60) as well, whose swap is (-60, 100). -/
theorem transform_swap_symmetry_fails :
    (-32768 ≤ (100 : Int) ∧ (100 : Int) ≤ 32767 ∧ -32768 ≤ (-60 : Int) ∧ (-60 : Int) ≤ 32767 ∧
      |(1 : Int)| ≤ 16383 ∧ ¬ ((1 : Int) = 0 ∧ (1 : Int) = 0)) ∧
    transform 100 (-60) 1 1 = some (100, -60) ∧
    (transform (-60) 100 1 (-1)).map Prod.swap = some (-60, 100) ∧
    transform 100 (-60) 1 1 ≠ (transform (-60) 100 1 (-1)).map Prod.swap := by
  decide

/-- C7. With both stored strengths equal to 1 (the initial values of the
globals) and samples in the signed 16-bit range, the mixed values are twice the
samples, the divisor is 2, and the frame stores exactly (left, right). -/
theorem transform_unit_identity (left right : Int)
    (hl1 : -32768 ≤ left) (hl2 : left ≤ 32767) (hr1 : -32768 ≤ right) (hr2 : right ≤ 32767) :
    mix 1 1 left right = (2 * left, 2 * right) ∧ divisor 1 1 = 2 ∧
    frame 1 1 left right =
      some { a := left, b := right, outLeft := left, outRight := right, monos := 1, cancels := 1 } ∧
    transform left right 1 1 = some (left, right) := by
  have hmix : mix 1 1 left right = (2 * left, 2 * right) := by
    have h1 := wrap32_eq (left + right) (by omega) (by omega)
    have h2 := wrap32_eq (left - right) (by omega) (by omega)
    have h3 := wrap32_eq (left + right + (left - right)) (by omega) (by omega)
    have h4 := wrap32_eq (left + right - (left - right)) (by omega) (by omega)
    simp only [mix, one_mul, h1, h2, h3, h4]
    ext
    · show left + right + (left - right) = 2 * left
      ring
    · show left + right - (left - right) = 2 * right
      ring
  have hd : specDivisor 1 1 = 2 := by decide
  have ha : Int.tdiv (1 * (left + right) + 1 * (left - right)) 2 = left := by
    have : 1 * (left + right) + 1 * (left - right) = 2 * left := by ring
    rw [this, Int.mul_tdiv_cancel_left _ (by decide)]
  have hb : Int.tdiv (1 * (left + right) - 1 * (left - right)) 2 = right := by
    have : 1 * (left + right) - 1 * (left - right) = 2 * right := by ring
    rw [this, Int.mul_tdiv_cancel_left _ (by decide)]
  have hf : frame 1 1 left right =
      some { a := left, b := right, outLeft := left, outRight := right, monos := 1, cancels := 1 } := by
    rw [frame_eq 1 1 left right hl1 hl2 hr1 hr2 (by decide) (by decide) (by decide), hd, ha, hb,
      wrap16_eq left (by omega) (by omega), wrap16_eq right (by omega) (by omega)]
    rfl
  refine ⟨hmix, by decide, hf, ?_⟩
  unfold transform
  rw [hf]
  rfl

/-- The frame (100, -60) under strengths (1, 1) is stored as (100, -60). -/
theorem transform_unit_identity_witness :
    mix 1 1 100 (-60) = (2 * 100, 2 * (-60)) ∧ divisor 1 1 = 2 ∧
    frame 1 1 100 (-60) =
      some { a := 100, b := -60, outLeft := 100, outRight := -60, monos := 1, cancels := 1 } ∧
    transform 100 (-60) 1 1 = some (100, -60) :=
  transform_unit_identity 100 (-60) (by decide) (by decide) (by decide) (by decide)

/-- C8. For samples in the signed 16-bit range: with strengths (1, 0) both
output samples are (left + right) / 2, and with strengths (0, 1) the outputs are
(left - right) / 2 and its negation, the divisions truncating toward zero and
the stored 16-bit values being the quotients themselves. -/
theorem transform_unit_isolates (left right : Int)
    (hl1 : -32768 ≤ left) (hl2 : left ≤ 32767) (hr1 : -32768 ≤ right) (hr2 : right ≤ 32767) :
    transform left right 1 0 = some (Int.tdiv (left + right) 2, Int.tdiv (left + right) 2) ∧
    transform left right 0 1 = some (Int.tdiv (left - right) 2, -(Int.tdiv (left - right) 2)) := by
  have hd1 : specDivisor 1 0 = 2 := by decide
  have hd2 : specDivisor 0 1 = 2 := by decide
  have e1 : 1 * (left + right) + 0 * (left - right) = left + right := by ring
  have e2 : 1 * (left + right) - 0 * (left - right) = left + right := by ring
  have e3 : 0 * (left + right) + 1 * (left - right) = left - right := by ring
  have e4 : 0 * (left + right) - 1 * (left - right) = -(left - right) := by ring
  have hs := tdiv_two (left + right)
  have hdf := tdiv_two (left - right)
  have ws : wrap16 (Int.tdiv (left + right) 2) = Int.tdiv (left + right) 2 := by
    apply wrap16_eq <;> (rw [hs]; split <;> omega)
  have wd : wrap16 (Int.tdiv (left - right) 2) = Int.tdiv (left - right) 2 := by
    apply wrap16_eq <;> (rw [hdf]; split <;> omega)
  have wn : wrap16 (-(Int.tdiv (left - right) 2)) = -(Int.tdiv (left - right) 2) := by
    apply wrap16_eq <;> (rw [hdf]; split <;> omega)
  constructor
  · unfold transform
    rw [frame_eq 1 0 left right hl1 hl2 hr1 hr2 (by decide) (by decide) (by decide), hd1, e1, e2,
      ws]
    rfl
  · unfold transform
    rw [frame_eq 0 1 left right hl1 hl2 hr1 hr2 (by decide) (by decide) (by decide), hd2, e3, e4,
      Int.neg_tdiv, wd, wn]
    rfl

/-- The frame (100, -60) gives (20, 20) under (1, 0) and (80, -80) under (0, 1). -/
theorem transform_unit_isolates_witness :
    (transform 100 (-60) 1 0 = some (Int.tdiv (100 + -60) 2, Int.tdiv (100 + -60) 2) ∧
      transform 100 (-60) 0 1 = some (Int.tdiv (100 - -60) 2, -(Int.tdiv (100 - -60) 2))) ∧
    transform 100 (-60) 1 0 = some (20, 20) ∧ transform 100 (-60) 0 1 = some (80, -80) :=
  ⟨transform_unit_isolates 100 (-60) (by decide) (by decide) (by decide) (by decide),
    by decide, by decide⟩

/-- C9. For stored strengths of absolute value below 2^30 the divisor computed
by the callback is twice the larger absolute value, whichever of the three
branches of the conditional is taken; it is zero exactly when both strengths
are zero, and otherwise it is positive and the frame performs both divisions
(it does not fault). -/
theorem divisor_formula (m c : Int) (hm : |m| < 1073741824) (hc : |c| < 1073741824) :
    divisor m c = 2 * max |m| |c| ∧
    (|m| > |c| → divisor m c = 2 * |m|) ∧
    (|c| > |m| → divisor m c = 2 * |c|) ∧
    (|m| = |c| → divisor m c = |m| + |c|) ∧
    (divisor m c = 0 ↔ m = 0 ∧ c = 0) ∧
    (¬ (m = 0 ∧ c = 0) → 0 < divisor m c ∧ ∀ A B : Int, (frame m c A B).isSome) := by
  have hm' := abs_lt.mp hm
  have hc' := abs_lt.mp hc
  have h0m := abs_nonneg m
  have h0c := abs_nonneg c
  have hd : divisor m c = 2 * max |m| |c| := by
    unfold divisor
    rw [flipSign_eq_abs m (by omega) (by omega), flipSign_eq_abs c (by omega) (by omega),
      divExpr_eq _ _ h0m hm h0c hc]
  have hz : divisor m c = 0 ↔ m = 0 ∧ c = 0 := by
    rw [hd]
    constructor
    · intro h
      have h1 : max |m| |c| = 0 := by omega
      have h2 : |m| ≤ 0 := h1 ▸ le_max_left |m| |c|
      have h3 : |c| ≤ 0 := h1 ▸ le_max_right |m| |c|
      exact ⟨abs_eq_zero.mp (le_antisymm h2 h0m), abs_eq_zero.mp (le_antisymm h3 h0c)⟩
    · rintro ⟨rfl, rfl⟩
      simp
  refine ⟨hd, ?_, ?_, ?_, hz, ?_⟩
  · intro h; rw [hd, max_eq_left (le_of_lt h)]
  · intro h; rw [hd, max_eq_right (le_of_lt h)]
  · intro h; rw [hd, h, max_self]; ring
  · intro hnz
    have hne : divisor m c ≠ 0 := fun h => hnz (hz.mp h)
    refine ⟨?_, fun A B => (frame_isSome_iff m c A B).mpr hne⟩
    have : 0 ≤ divisor m c := by
      rw [hd]
      have := le_trans h0m (le_max_left |m| |c|)
      omega
    omega

/-- The divisor for strengths (-7, 3). -/
theorem divisor_formula_witness :
    divisor (-7) 3 = 2 * max |(-7 : Int)| |(3 : Int)| ∧
    (|(-7 : Int)| > |(3 : Int)| → divisor (-7) 3 = 2 * |(-7 : Int)|) ∧
    (|(3 : Int)| > |(-7 : Int)| → divisor (-7) 3 = 2 * |(3 : Int)|) ∧
    (|(-7 : Int)| = |(3 : Int)| → divisor (-7) 3 = |(-7 : Int)| + |(3 : Int)|) ∧
    (divisor (-7) 3 = 0 ↔ (-7 : Int) = 0 ∧ (3 : Int) = 0) ∧
    (¬ ((-7 : Int) = 0 ∧ (3 : Int) = 0) →
      0 < divisor (-7) 3 ∧ ∀ A B : Int, (frame (-7) 3 A B).isSome) :=
  divisor_formula (-7) 3 (by decide) (by decide)

/-- A truncating quotient by a positive divisor stays within the bound its
dividend has relative to the divisor. -/
theorem tdiv_range (a d K : Int) (hd : 0 < d) (h1 : -(K * d) ≤ a) (h2 : a < K * d) :
    -K ≤ Int.tdiv a d ∧ Int.tdiv a d < K := by
  have hK : 0 < K := by
    by_contra hneg
    have : K * d ≤ 0 := mul_nonpos_of_nonpos_of_nonneg (by omega) (le_of_lt hd)
    omega
  rcases le_or_lt 0 a with ha | ha
  · rw [Int.tdiv_eq_ediv ha (le_of_lt hd)]
    have hq0 : 0 ≤ a / d := Int.ediv_nonneg ha (le_of_lt hd)
    have hq1 : a / d < K := Int.ediv_lt_of_lt_mul hd h2
    omega
  · have hneg : a = -(-a) := by ring
    rw [hneg, Int.neg_tdiv, Int.tdiv_eq_ediv (by omega) (le_of_lt hd)]
    have hq0 : 0 ≤ (-a) / d := Int.ediv_nonneg (by omega) (le_of_lt hd)
    have hq1 : (-a) / d ≤ K := Int.ediv_le_of_le_mul hd (by omega)
    omega

/-- With non-negative stored strengths (as they are from the second frame of a
playback on) the normalised values fit the 16-bit output samples. -/
theorem frame_in_range_of_nonneg (m c A B : Int) (hA1 : -32768 ≤ A) (hA2 : A ≤ 32767)
    (hB1 : -32768 ≤ B) (hB2 : B ≤ 32767) (hm0 : 0 ≤ m) (hm : m ≤ 16383) (hc0 : 0 ≤ c)
    (hc : c ≤ 16383) (hnz : ¬ (m = 0 ∧ c = 0)) :
    ∃ r, frame m c A B = some r ∧ -32768 ≤ r.a ∧ r.a ≤ 32767 ∧ -32768 ≤ r.b ∧ r.b ≤ 32767 ∧
      r.outLeft = r.a ∧ r.outRight = r.b := by
  have hfe := frame_eq m c A B hA1 hA2 hB1 hB2 (by rw [abs_of_nonneg hm0]; exact hm)
    (by rw [abs_of_nonneg hc0]; exact hc) hnz
  have hd : specDivisor m c = 2 * max m c := by
    rw [specDivisor_eq, abs_of_nonneg hm0, abs_of_nonneg hc0]
  have hA3 : 0 ≤ 32767 - A := by omega
  have hA4 : 0 ≤ A + 32768 := by omega
  have hB3 : 0 ≤ 32767 - B := by omega
  have hB4 : 0 ≤ B + 32768 := by omega
  have hsum : 0 < m + c := by omega
  have hra : -32768 ≤ Int.tdiv (m * (A + B) + c * (A - B)) (specDivisor m c) ∧
      Int.tdiv (m * (A + B) + c * (A - B)) (specDivisor m c) < 32768 := by
    rw [hd]
    rcases le_total c m with h | h
    · rw [max_eq_left h]
      have hmc : 0 ≤ m - c := by omega
      apply tdiv_range _ _ 32768 (by omega)
      · nlinarith [mul_nonneg (le_of_lt hsum) hA4, mul_nonneg hmc hB4]
      · nlinarith [mul_nonneg (le_of_lt hsum) hA3, mul_nonneg hmc hB3]
    · rw [max_eq_right h]
      have hmc : 0 ≤ c - m := by omega
      apply tdiv_range _ _ 32768 (by omega)
      · nlinarith [mul_nonneg (le_of_lt hsum) hA4, mul_nonneg hmc hB3]
      · nlinarith [mul_nonneg (le_of_lt hsum) hA3, mul_nonneg hmc hB4]
  have hrb : -32768 ≤ Int.tdiv (m * (A + B) - c * (A - B)) (specDivisor m c) ∧
      Int.tdiv (m * (A + B) - c * (A - B)) (specDivisor m c) < 32768 := by
    rw [hd]
    rcases le_total c m with h | h
    · rw [max_eq_left h]
      have hmc : 0 ≤ m - c := by omega
      apply tdiv_range _ _ 32768 (by omega)
      · nlinarith [mul_nonneg (le_of_lt hsum) hB4, mul_nonneg hmc hA4]
      · nlinarith [mul_nonneg (le_of_lt hsum) hB3, mul_nonneg hmc hA3]
    · rw [max_eq_right h]
      have hmc : 0 ≤ c - m := by omega
      apply tdiv_range _ _ 32768 (by omega)
      · nlinarith [mul_nonneg (le_of_lt hsum) hB4, mul_nonneg hmc hA3]
      · nlinarith [mul_nonneg (le_of_lt hsum) hB3, mul_nonneg hmc hA4]
  refine ⟨_, hfe, hra.1, Int.le_of_lt_add_one hra.2, hrb.1, Int.le_of_lt_add_one hrb.2, ?_, ?_⟩
  · exact wrap16_eq _ hra.1 hra.2
  · exact wrap16_eq _ hrb.1 hrb.2

/-- C10 at its failing input: with stored strengths (-1, 0) and both samples
-32768 the normalised values are 32768, outside the signed 16-bit range, and
the two stores wrap to -32768. -/
theorem normalised_value_exceeds_short :
    frame (-1) 0 (-32768) (-32768) =
      some { a := 32768, b := 32768, outLeft := -32768, outRight := -32768,
             monos := 1, cancels := 0 } ∧
    ¬ ((32768 : Int) ≤ 32767) := by
  decide

/-! ## The loop and the cursor -/

theorem readShort_some (buf : List (Fin 256)) (k : Nat) (h : 2 * k + 2 ≤ buf.length) :
    ∃ v, readShort buf k = some v := by
  unfold readShort
  rw [List.getElem?_eq_getElem (by omega), List.getElem?_eq_getElem (by omega)]
  exact ⟨_, rfl⟩

theorem readShort_bound (buf : List (Fin 256)) (k : Nat) (v : Int) (h : readShort buf k = some v) :
    2 * k + 2 ≤ buf.length := by
  unfold readShort at h
  by_contra hlt
  have hn : buf[2 * k + 1]? = none := List.getElem?_eq_none (by omega)
  rw [hn] at h
  cases hlo : buf[2 * k]? <;> simp [hlo] at h

theorem divisor_ne_zero (m c : Int) (h : UsableStrengths m c) : divisor m c ≠ 0 := by
  obtain ⟨h1, h2, h3, h4, h5⟩ := h
  unfold divisor divExpr flipSign wrap32
  split_ifs <;> omega

theorem frame_some (m c A B : Int) (h : UsableStrengths m c) :
    ∃ r, frame m c A B = some r ∧ UsableStrengths r.monos r.cancels := by
  have hne := divisor_ne_zero m c h
  unfold divisor at hne
  refine ⟨_, by unfold frame; simp only [if_neg hne]; rfl, ?_⟩
  obtain ⟨h1, h2, h3, h4, h5⟩ := h
  show UsableStrengths (flipSign m) (flipSign c)
  unfold UsableStrengths flipSign wrap32
  split_ifs <;> omega

theorem loop_cond (i len : Int) (hi0 : 0 ≤ i) (hi : i < 2147483648) (hl0 : 0 ≤ len)
    (hl : len < 2147483648) :
    toSizeT i * sizeofShort % 18446744073709551616 < toSizeT len ↔ 2 * i < len := by
  unfold toSizeT sizeofShort
  omega

/-- With `n` iterations left, enough fuel, input for `n` frames and usable
strengths, the loop returns after exactly `n` frames. -/
theorem loop_done (n : Nat) : ∀ (fuel : Nat) (s : State) (i len : Int) (out : List (Int × Int)),
    n < fuel → 0 ≤ i → 0 ≤ len → len < 2147483648 → len ≤ 2 * i + 4 * n →
    2 * i + 4 * n < len + 4 → UsableStrengths s.monos s.cancels →
    (s.wav_sample + 2 * n) * 2 ≤ s.wav_buffer.length → s.wav_buffer.length < 4294967296 →
    ∃ s1 out1, loop fuel s i len out = Outcome.done s1 out1 ∧
      s1.wav_sample = s.wav_sample + 2 * n ∧ s1.wav_buffer = s.wav_buffer ∧
      out1.length = out.length + 2 * n := by
  induction n with
  | zero =>
    intro fuel s i len out hf hi0 hl0 hl h1 h2 _ _ _
    obtain ⟨f, rfl⟩ : ∃ f, fuel = f + 1 := ⟨fuel - 1, by omega⟩
    have hc : ¬ (toSizeT i * sizeofShort % 18446744073709551616 < toSizeT len) := by
      rw [loop_cond i len hi0 (by omega) hl0 hl]; omega
    exact ⟨s, out, by rw [loop, if_neg hc], by simp, rfl, by simp⟩
  | succ n ih =>
    intro fuel s i len out hf hi0 hl0 hl h1 h2 hs hb hb32
    obtain ⟨f, rfl⟩ : ∃ f, fuel = f + 1 := ⟨fuel - 1, by omega⟩
    have hc : toSizeT i * sizeofShort % 18446744073709551616 < toSizeT len := by
      rw [loop_cond i len hi0 (by omega) hl0 hl]; omega
    have hk0 : (s.wav_sample + LEFT_CHA) % 4294967296 = s.wav_sample := by
      unfold LEFT_CHA; omega
    have hk1 : (s.wav_sample + RIGHT_CHA) % 4294967296 = s.wav_sample + 1 := by
      unfold RIGHT_CHA; omega
    have hk2 : (s.wav_sample + IN_CHA) % 4294967296 = s.wav_sample + 2 := by
      unfold IN_CHA; omega
    obtain ⟨A, hA⟩ := readShort_some s.wav_buffer s.wav_sample (by omega)
    obtain ⟨B, hB⟩ := readShort_some s.wav_buffer (s.wav_sample + 1) (by omega)
    obtain ⟨r, hr, hgood⟩ := frame_some s.monos s.cancels A B hs
    have hi2 : wrap32 (i + IN_CHA) = i + 2 := by
      unfold IN_CHA
      rw [wrap32_eq _ (by omega) (by omega)]
      rfl
    obtain ⟨s1, out1, hrun, hws, hbuf, hlen⟩ :=
      ih f { s with monos := r.monos, cancels := r.cancels, wav_sample := s.wav_sample + 2 }
        (i + 2) len
        (out ++ [(wrap32 (LEFT_CHA + i), r.outLeft), (wrap32 (RIGHT_CHA + i), r.outRight)])
        (by omega) (by omega) hl0 hl (by omega) (by omega) hgood
        (by show (s.wav_sample + 2 + 2 * n) * 2 ≤ s.wav_buffer.length; omega) hb32
    refine ⟨s1, out1, ?_, ?_, hbuf, ?_⟩
    · rw [loop, if_pos hc]
      simp only [hk0, hk1, hk2, hA, hB, hr, hi2]
      exact hrun
    · rw [hws]; show s.wav_sample + 2 + 2 * n = s.wav_sample + 2 * (n + 1); omega
    · rw [hlen]; simp; omega

/-- Whenever the loop returns, the cursor has moved forward by an even amount
and stays a `Uint32`; the buffer is untouched. -/
theorem loop_returns (fuel : Nat) : ∀ (s : State) (i len : Int) (out : List (Int × Int))
    (s1 : State) (out1 : List (Int × Int)),
    s.wav_sample < 4294967296 → s.wav_buffer.length < 4294967296 →
    loop fuel s i len out = Outcome.done s1 out1 →
    s.wav_sample ≤ s1.wav_sample ∧ 2 ∣ (s1.wav_sample - s.wav_sample) ∧
      s1.wav_sample < 4294967296 ∧ s1.wav_buffer = s.wav_buffer := by
  induction fuel with
  | zero =>
    intro s i len out s1 out1 _ _ h
    simp [loop] at h
  | succ f ih =>
    intro s i len out s1 out1 h32 hb32 h
    rw [loop] at h
    split at h
    · split at h
      · simp at h
      · rename_i A hA
        split at h
        · simp at h
        · split at h
          · simp at h
          · have hbound := readShort_bound _ _ _ hA
            have hk0 : (s.wav_sample + LEFT_CHA) % 4294967296 = s.wav_sample := by
              unfold LEFT_CHA; omega
            rw [hk0] at hbound
            have hk2 : (s.wav_sample + IN_CHA) % 4294967296 = s.wav_sample + 2 := by
              unfold IN_CHA; omega
            rw [hk2] at h
            rename_i r _
            obtain ⟨h1, h2, h3, h4⟩ :=
              ih { s with monos := r.monos, cancels := r.cancels, wav_sample := s.wav_sample + 2 }
                _ _ _ _ _ (by show s.wav_sample + 2 < 4294967296; omega) hb32 h
            have h1' : s.wav_sample + 2 ≤ s1.wav_sample := h1
            have h2' : 2 ∣ (s1.wav_sample - (s.wav_sample + 2)) := h2
            exact ⟨by omega, by omega, h3, h4⟩
    · simp only [Outcome.done.injEq] at h
      obtain ⟨rfl, _⟩ := h
      exact ⟨le_refl _, by simp, h32, rfl⟩

theorem AudioCallback_returns (fuel : Nat) (s : State) (len : Int) (s1 : State)
    (out1 : List (Int × Int)) (h32 : s.wav_sample < 4294967296)
    (hb32 : s.wav_buffer.length < 4294967296)
    (h : AudioCallback fuel s len = Outcome.done s1 out1) :
    s.wav_sample ≤ s1.wav_sample ∧ 2 ∣ (s1.wav_sample - s.wav_sample) ∧
      s1.wav_sample < 4294967296 ∧ s1.wav_buffer = s.wav_buffer := by
  unfold AudioCallback at h
  split at h
  · simp only [Outcome.done.injEq] at h
    obtain ⟨rfl, _⟩ := h
    exact ⟨le_refl _, by simp, h32, rfl⟩
  · exact loop_returns fuel s 0 len [] s1 out1 h32 hb32 h

theorem invocations_returns (fuel : Nat) (lens : List Int) : ∀ (s s1 : State)
    (outs : List (List (Int × Int))), s.wav_sample < 4294967296 →
    s.wav_buffer.length < 4294967296 → invocations fuel s lens = some (s1, outs) →
    s.wav_sample ≤ s1.wav_sample ∧ 2 ∣ (s1.wav_sample - s.wav_sample) := by
  induction lens with
  | nil =>
    intro s s1 outs _ _ h
    simp only [invocations, Option.some.injEq, Prod.mk.injEq] at h
    obtain ⟨rfl, _⟩ := h
    exact ⟨le_refl _, by simp⟩
  | cons len rest ih =>
    intro s s1 outs h32 hb32 h
    rw [invocations] at h
    split at h
    · rename_i s2 out hcall
      obtain ⟨h1, h2, h3, h4⟩ := AudioCallback_returns fuel s len s2 out h32 hb32 hcall
      split at h
      · rename_i s3 outs3 hrest
        simp only [Option.some.injEq, Prod.mk.injEq] at h
        obtain ⟨rfl, _⟩ := h
        obtain ⟨h5, h6⟩ := ih s2 s3 outs3 h3 (by rw [h4]; exact hb32) hrest
        exact ⟨by omega, by omega⟩
      · simp at h
    · simp at h

/-! ## The callback -/

/-- C2 at its failing input: the buffer holds the frame (100, -60) twice, the
startup strengths are (-1, 1) and one invocation asks for both frames. The
specified transform of (100, -60) under (-1, 1) is (60, -100); the callback
stores (60, -100) for the first frame and (100, -60) for the second, the
stored strengths having become (1, 1) in between. -/
theorem second_frame_uses_flipped_strengths :
    readShort [100, 0, 196, 255, 100, 0, 196, 255] 0 = some 100 ∧
    readShort [100, 0, 196, 255, 100, 0, 196, 255] 1 = some (-60) ∧
    readShort [100, 0, 196, 255, 100, 0, 196, 255] 2 = some 100 ∧
    readShort [100, 0, 196, 255, 100, 0, 196, 255] 3 = some (-60) ∧
    specTransform 100 (-60) (-1) 1 = (60, -100) ∧
    AudioCallback 3
        { wav_buffer := [100, 0, 196, 255, 100, 0, 196, 255], wav_sample := 0,
          monos := -1, cancels := 1 } 8 =
      Outcome.done
        { wav_buffer := [100, 0, 196, 255, 100, 0, 196, 255], wav_sample := 4,
          monos := 1, cancels := 1 }
        [(0, 60), (1, -100), (2, 100), (3, -60)] := by
  decide

/-- C3 at its failing input: the buffer holds one frame (4 bytes), the cursor
is 0 and the invocation asks for 8 bytes. The second iteration reads
`inbu[2]`, whose bytes 4 and 5 lie outside the 4-byte buffer. -/
theorem second_frame_read_past_end :
    State.wav_length { wav_buffer := [100, 0, 196, 255], wav_sample := 0, monos := 1, cancels := 1 }
      = 4 ∧
    ¬ ((2 + 1) * 2 ≤ 4) ∧
    (∀ fuel : Nat,
      AudioCallback (fuel + 2)
        { wav_buffer := [100, 0, 196, 255], wav_sample := 0, monos := 1, cancels := 1 } 8 =
      Outcome.readPastEnd 2) := by
  refine ⟨by decide, by decide, fun fuel => ?_⟩
  rfl

/-- C4. In a state whose cursor satisfies cursor * 2 >= wav_length, for every
requested length the callback returns with an empty store log and unchanged
globals (cursor, buffer, both strengths); hence every sequence of invocations
started there returns with all logs empty and the same globals. -/
theorem exhausted_is_terminal (s : State) (h32 : s.wav_sample < 4294967296)
    (hex : s.wav_sample * 2 ≥ s.wav_length) :
    (∀ (fuel : Nat) (len : Int), AudioCallback fuel s len = Outcome.done s []) ∧
    (∀ (fuel : Nat) (lens : List Int),
      invocations fuel s lens = some (s, lens.map fun _ => [])) := by
  have h1 : ∀ (fuel : Nat) (len : Int), AudioCallback fuel s len = Outcome.done s [] := by
    intro fuel len
    unfold AudioCallback
    rw [if_pos]
    unfold sizeofShort
    omega
  refine ⟨h1, fun fuel lens => ?_⟩
  induction lens with
  | nil => rfl
  | cons len rest ih =>
    rw [invocations, h1 fuel len]
    simp only [ih, List.map_cons]

/-- A one-frame buffer with the cursor at its end. -/
theorem exhausted_is_terminal_witness :
    (∀ (fuel : Nat) (len : Int),
      AudioCallback fuel
        { wav_buffer := [100, 0, 196, 255], wav_sample := 2, monos := -1, cancels := 1 } len =
      Outcome.done
        { wav_buffer := [100, 0, 196, 255], wav_sample := 2, monos := -1, cancels := 1 } []) ∧
    (∀ (fuel : Nat) (lens : List Int),
      invocations fuel
        { wav_buffer := [100, 0, 196, 255], wav_sample := 2, monos := -1, cancels := 1 } lens =
      some ({ wav_buffer := [100, 0, 196, 255], wav_sample := 2, monos := -1, cancels := 1 },
        lens.map fun _ => [])) :=
  exhausted_is_terminal
    { wav_buffer := [100, 0, 196, 255], wav_sample := 2, monos := -1, cancels := 1 }
    (by decide) (by decide)

/-- C5 (as the code behaves). Let the buffer be shorter than 2^32 bytes and the
cursor a 32-bit value. (1) An invocation in the Playing state with
0 <= len < 2^31, input left for ceil(len/4) frames, and strengths not both zero
and each strictly between -2^31 and 2^31, returns (given fuel for its
iterations) after exactly ceil(len/4) frames, two stores each, with the cursor
advanced by 2 per frame, which is len/2 when len is a multiple of 4, whatever
the samples are. (2) Over any sequence of invocations that return, the cursor
never decreases and stays even if it was even (in particular from 0). -/
theorem cursor_advance (s : State) (hb32 : s.wav_length < 4294967296)
    (h32 : s.wav_sample < 4294967296) :
    (∀ (len : Int) (fuel : Nat), s.wav_sample * 2 < s.wav_length → 0 ≤ len →
      len < 2147483648 → (s.wav_sample + 2 * ((len + 3) / 4).toNat) * 2 ≤ s.wav_length →
      -2147483648 < s.monos → s.monos < 2147483648 →
      -2147483648 < s.cancels → s.cancels < 2147483648 →
      ¬ (s.monos = 0 ∧ s.cancels = 0) → ((len + 3) / 4).toNat < fuel →
      ∃ s1 out, AudioCallback fuel s len = Outcome.done s1 out ∧
        out.length = 2 * ((len + 3) / 4).toNat ∧
        s1.wav_sample = s.wav_sample + 2 * ((len + 3) / 4).toNat ∧
        (len % 4 = 0 → (s1.wav_sample : Int) = s.wav_sample + len / 2) ∧
        s1.wav_buffer = s.wav_buffer) ∧
    (∀ (fuel : Nat) (lens : List Int) (s1 : State) (outs : List (List (Int × Int))),
      invocations fuel s lens = some (s1, outs) →
      s.wav_sample ≤ s1.wav_sample ∧ (2 ∣ s.wav_sample → 2 ∣ s1.wav_sample)) := by
  constructor
  · intro len fuel hplay hl0 hl henough hm1 hm2 hc1 hc2 hnz hfuel
    unfold State.wav_length at hplay henough hb32
    obtain ⟨s1, out, hrun, hws, hbuf, hlen⟩ :=
      loop_done ((len + 3) / 4).toNat fuel s 0 len [] hfuel (le_refl _) hl0 hl (by omega)
        (by omega) ⟨hm1, hm2, hc1, hc2, hnz⟩ henough hb32
    refine ⟨s1, out, ?_, by simpa using hlen, hws, ?_, hbuf⟩
    · unfold AudioCallback State.wav_length sizeofShort
      rw [if_neg (by omega)]
      exact hrun
    · intro h4
      rw [hws]
      omega
  · intro fuel lens s1 outs h
    obtain ⟨h1, h2⟩ := invocations_returns fuel lens s s1 outs h32 hb32 h
    exact ⟨h1, fun h0 => by omega⟩

/-- A two-frame buffer played by one invocation of 8 bytes under strengths (3, -2). -/
theorem cursor_advance_witness :
    ∃ s1 out,
      AudioCallback 3
          { wav_buffer := [100, 0, 196, 255, 7, 0, 9, 0], wav_sample := 0,
            monos := 3, cancels := -2 } 8 = Outcome.done s1 out ∧
        out.length = 2 * (((8 : Int) + 3) / 4).toNat ∧
        s1.wav_sample = 0 + 2 * (((8 : Int) + 3) / 4).toNat ∧
        ((8 : Int) % 4 = 0 → (s1.wav_sample : Int) = (0 : Nat) + (8 : Int) / 2) ∧
        s1.wav_buffer = [100, 0, 196, 255, 7, 0, 9, 0] :=
  (cursor_advance
      { wav_buffer := [100, 0, 196, 255, 7, 0, 9, 0], wav_sample := 0, monos := 3, cancels := -2 }
      (by decide) (by decide)).1 8 3 (by decide) (by decide) (by decide) (by decide) (by decide)
    (by decide) (by decide) (by decide) (by decide) (by decide)

/-- C5 (as stated) fails: the buffer holds one frame, the cursor is 0 (Playing),
4 bytes are requested and the strengths (0, -2^31) are not both zero. The sign
flip of -2^31 wraps back to -2^31, the first branch of the conditional gives
div = 2 * 0 = 0, and the callback stops at the division in the first frame:
for no amount of fuel does it return. -/
theorem cursor_advance_fails_at_int_min :
    ((0 : Nat) * 2 < State.wav_length
        { wav_buffer := [1, 0, 1, 0], wav_sample := 0, monos := 0, cancels := -2147483648 } ∧
      (0 : Int) ≤ 4 ∧
      (0 + 2 * (((4 : Int) + 3) / 4).toNat) * 2 ≤ State.wav_length
        { wav_buffer := [1, 0, 1, 0], wav_sample := 0, monos := 0, cancels := -2147483648 } ∧
      ¬ ((0 : Int) = 0 ∧ (-2147483648 : Int) = 0)) ∧
    divisor 0 (-2147483648) = 0 ∧
    (∀ fuel : Nat,
      AudioCallback (fuel + 1)
        { wav_buffer := [1, 0, 1, 0], wav_sample := 0, monos := 0, cancels := -2147483648 } 4 =
      Outcome.divByZero) ∧
    (∀ (fuel : Nat) (s1 : State) (out : List (Int × Int)),
      AudioCallback fuel
        { wav_buffer := [1, 0, 1, 0], wav_sample := 0, monos := 0, cancels := -2147483648 } 4 ≠
      Outcome.done s1 out) := by
  have h : ∀ fuel : Nat,
      AudioCallback (fuel + 1)
        { wav_buffer := [1, 0, 1, 0], wav_sample := 0, monos := 0, cancels := -2147483648 } 4 =
      Outcome.divByZero := fun _ => rfl
  refine ⟨by decide, by decide, h, fun fuel s1 out => ?_⟩
  cases fuel with
  | zero =>
    have h0 : AudioCallback 0
        { wav_buffer := [1, 0, 1, 0], wav_sample := 0, monos := 0, cancels := -2147483648 } 4 =
        Outcome.outOfFuel := rfl
    rw [h0]
    exact fun hh => Outcome.noConfusion hh
  | succ f =>
    rw [h f]
    exact fun hh => Outcome.noConfusion hh

end AudioImager
